import Mathlib

/-!
# Verification of the GoSubtitle subtitle-processing core

A shallow embedding of `src/modules/subtitle_processor.py` (class
`SubtitleProcessor`): cue extraction from the parsed Movie-XML document,
overlap merging, segment splitting with timing allocation, SRT timestamp
formatting and the offset utility.  Python `float` values are embedded as
exact rationals (`ℚ`); Python `str` values are embedded as `List Char`.
-/

namespace GoSubtitle

/-- Python strings are modelled as lists of characters. -/
abbrev Str := List Char

/-- The whitespace set recognised by Python's `str.split()` / `str.strip()`
(space, tab, newline, carriage return, vertical tab, form feed). -/
def pyIsSpace (c : Char) : Bool :=
  c = ' ' || c = '\t' || c = '\n' || c = '\r' || c = '\x0b' || c = '\x0c'

/-- Worker for `pySplit`: `acc` holds the characters of the token currently
being read, in reverse order. -/
def pySplitAux : Str → Str → List Str
  | [], acc => if acc = [] then [] else [acc.reverse]
  | c :: cs, acc =>
      if pyIsSpace c then
        if acc = [] then pySplitAux cs [] else acc.reverse :: pySplitAux cs []
      else pySplitAux cs (c :: acc)

/-- Python `s.split()` (no argument): split on runs of whitespace, dropping
empty tokens. -/
def pySplit (s : Str) : List Str := pySplitAux s []

/-- Python `s.lstrip()`: drop leading whitespace. -/
def lstrip (s : Str) : Str := s.dropWhile pyIsSpace

/-- Python `s.rstrip()`: drop trailing whitespace. -/
def rstrip (s : Str) : Str := (s.reverse.dropWhile pyIsSpace).reverse

/-- Python `s.strip()`: drop leading and trailing whitespace. -/
def pyStrip (s : Str) : Str := lstrip (rstrip s)

/-- Python `s.capitalize()`: first character upper-cased, all following
characters lower-cased (ASCII case mapping). -/
def pyCapitalize : Str → Str
  | [] => []
  | c :: cs => Char.toUpper c :: cs.map Char.toLower

/-- Python `s.split(sep)` for a one-character separator: split at every
occurrence, keeping empty pieces. -/
def splitChAux (sep : Char) : Str → Str → List Str
  | [], acc => [acc.reverse]
  | c :: cs, acc =>
      if c = sep then acc.reverse :: splitChAux sep cs []
      else splitChAux sep cs (c :: acc)

/-- Python `s.split(sep)` (single-character separator). -/
def splitCh (sep : Char) (s : Str) : List Str := splitChAux sep s []

/-- One subtitle cue: the dictionary
`{'start': float, 'stop': float, 'text': str, 'speaker': str}` built by
`_convert_to_dict`. -/
@[ext]
structure Cue where
  start : ℚ
  stop : ℚ
  text : Str
  speaker : Str
  deriving DecidableEq, Repr

/-- The merge of an incoming overlapping cue into the current accumulator cue
(`_merge_overlapping`, loop body): speakers joined with `/` when different,
texts joined with a newline, `stop` maximised, `start` kept. -/
def mergeCues (last sub : Cue) : Cue :=
  { start := last.start
    stop := max last.stop sub.stop
    text := last.text ++ '\n' :: sub.text
    speaker :=
      if sub.speaker ≠ last.speaker then last.speaker ++ '/' :: sub.speaker
      else last.speaker }

/-- Worker for `mergeOverlapping`: `acc` is the `merged_subtitles` list in
reverse order, so its head is the Python list's last element. -/
def mergeRev : List Cue → List Cue → List Cue
  | acc, [] => acc
  | [], sub :: rest => mergeRev [sub] rest
  | last :: accRest, sub :: rest =>
      if sub.start < last.stop then mergeRev (mergeCues last sub :: accRest) rest
      else mergeRev (sub :: last :: accRest) rest

/-- `SubtitleProcessor._merge_overlapping`: left-to-right scan that merges
each cue overlapping the last emitted cue into it. -/
def merge_overlapping (subs : List Cue) : List Cue :=
  (mergeRev [] subs).reverse

/-! ## Segment splitter (`_split_subtitle_entry`) -/

/-- The constructor parameters of `SubtitleProcessor`. -/
structure Config where
  maxWordsPerLine : ℕ
  wordsPerSecond : ℚ
  deriving DecidableEq, Repr

/-- `SubtitleProcessor.FPS` (fixed to 24 fps). -/
def FPS : ℕ := 24

/-- `SubtitleProcessor.MIN_SUBTITLE_DURATION` (seconds). -/
def MIN_SUBTITLE_DURATION : ℚ := 1/2

/-- `sentence_endings = ['. ', '! ', '? ', ': ']`. -/
def sentenceEndings : List Str := [['.', ' '], ['!', ' '], ['?', ' '], [':', ' ']]

/-- `any(current_segment.rstrip().endswith(ending.strip()) for ending in
sentence_endings)`. -/
def endsWithSentence (cur : Str) : Bool :=
  sentenceEndings.any (fun e => (pyStrip e).isSuffixOf (rstrip cur))

/-- The word-accumulation loop of `_split_subtitle_entry` over one paragraph:
`cur` is `current_segment`, the remaining argument is the word list still to
be scanned.  A boundary is pushed when the current segment is non-empty and
either ends in sentence punctuation or has reached the word cap. -/
def segLoop (maxWords : ℕ) (cur : Str) : List Str → List Str
  | [] => if cur ≠ [] then [pyStrip cur] else []
  | w :: ws =>
      let cnt := if cur ≠ [] then (pySplit cur).length else 0
      let test := if cur ≠ [] then cur ++ ' ' :: w else w
      if cur ≠ [] ∧ (endsWithSentence cur = true ∨ maxWords ≤ cnt) then
        pyStrip cur :: segLoop maxWords w ws
      else segLoop maxWords test ws

/-- The segmentation phase of `_split_subtitle_entry`: split the text on
explicit newlines, then run the word-accumulation loop on each paragraph,
collecting all segments into one list. -/
def splitSegments (maxWords : ℕ) (text : Str) : List Str :=
  (splitCh '\n' text).flatMap (fun p => segLoop maxWords [] (pySplit p))

/-- The final layout loop of `_split_subtitle_entry`: each segment is given
`[current_start, current_start + duration)`.  The two lists always have equal
length at the call site, so the mismatched cases are unreachable. -/
def layOut (speaker : Str) : ℚ → List Str → List ℚ → List Cue
  | _, [], _ => []
  | _, _ :: _, [] => []
  | s, seg :: segs, d :: ds => ⟨s, s + d, seg, speaker⟩ :: layOut speaker (s + d) segs ds

/-- `result[-1]['stop'] = subtitle['stop']`: pin the last cue's stop. -/
def pinLast (stp : ℚ) : List Cue → List Cue
  | [] => []
  | [c] => [{ c with stop := stp }]
  | c :: c2 :: rest => c :: pinLast stp (c2 :: rest)

/-- The timing-allocation phase of `_split_subtitle_entry`: ideal durations
from word counts at the configured speaking rate, proportional rescale to the
available span (equal division if the ideal total is zero), clamping to the
minimum duration, and a second rescale if the clamped total overflows. -/
def segment_durations (cfg : Config) (segments : List Str) (totalDuration : ℚ) :
    List ℚ :=
  let segmentWordCounts := segments.map (fun seg => (pySplit seg).length)
  let segmentDurations0 :=
    segmentWordCounts.map (fun wc : ℕ => (wc : ℚ) / cfg.wordsPerSecond)
  let totalIdealDuration := segmentDurations0.sum
  let segmentDurations1 :=
    if 0 < totalIdealDuration then
      segmentDurations0.map (fun d => d * (totalDuration / totalIdealDuration))
    else
      List.replicate segments.length (totalDuration / (segments.length : ℚ))
  let minDurationFrames := MIN_SUBTITLE_DURATION * (FPS : ℚ)
  let segmentDurations2 :=
    segmentDurations1.map (fun d => if d < minDurationFrames then minDurationFrames else d)
  let adjustedTotal := segmentDurations2.sum
  if totalDuration < adjustedTotal then
    segmentDurations2.map (fun d => d * (totalDuration / adjustedTotal))
  else segmentDurations2

/-- `SubtitleProcessor._split_subtitle_entry`: segment the text, allocate the
span across the segments with `segment_durations`, then lay the segments out
contiguously with the last stop pinned to the source's stop. -/
def split_subtitle_entry (cfg : Config) (subtitle : Cue) : List Cue :=
  if subtitle.text = [] then [subtitle] else
  let segments := splitSegments cfg.maxWordsPerLine subtitle.text
  if segments.length ≤ 1 then [subtitle] else
  pinLast subtitle.stop
    (layOut subtitle.speaker subtitle.start segments
      (segment_durations cfg segments (subtitle.stop - subtitle.start)))

/-! ## Timestamp formatter (`format_time`) -/

/-- Python `int()` applied to a number: truncation toward zero. -/
def pyInt (q : ℚ) : ℤ := if 0 ≤ q then ⌊q⌋ else ⌈q⌉

/-- Python `a // b` on floats: the floor of the quotient, as a number. -/
def pyFloorDiv (a b : ℚ) : ℚ := ⌊a / b⌋

/-- Python `a % b` on floats: `a - b * (a // b)` (sign follows `b`). -/
def pyMod (a b : ℚ) : ℚ := a - b * ⌊a / b⌋

/-- Decimal digit string of a natural number. -/
def natToDigits (n : ℕ) : Str := Nat.toDigits 10 n

/-- Python `f"{n:0w}"`: decimal representation of an integer, zero-padded on
the left (after the sign) to width `w`. -/
def zfill (w : ℕ) (n : ℤ) : Str :=
  if n < 0 then
    let ds := natToDigits (-n).toNat
    '-' :: (List.replicate (w - 1 - ds.length) '0' ++ ds)
  else
    let ds := natToDigits n.toNat
    List.replicate (w - ds.length) '0' ++ ds

/-- `SubtitleProcessor.format_time`: convert a frame count to an SRT
`HH:MM:SS,mmm` timestamp at the given frame rate. -/
def format_time (frames : ℚ) (fps : ℤ) : Str :=
  let seconds := frames / (fps : ℚ)
  let hours := pyInt (pyFloorDiv seconds 3600)
  let minutes := pyInt (pyFloorDiv (pyMod seconds 3600) 60)
  let secs := pyInt (pyMod seconds 60)
  let millis := pyInt (pyMod seconds 1 * 1000)
  zfill 2 hours ++ ':' :: zfill 2 minutes ++ ':' :: zfill 2 secs ++ ',' :: zfill 3 millis

/-- The Timestamp Formatter as worded by the specification: hours, minutes
and seconds by integer division and modulo on the whole-second part, and
milliseconds by truncating the fractional-second remainder to three digits.
This definition follows the spec's words and is compared against
`format_time`, which follows the code. -/
def format_time_spec (frames : ℚ) (fps : ℤ) : Str :=
  let seconds := frames / (fps : ℚ)
  let whole : ℤ := ⌊seconds⌋
  let hours := whole / 3600
  let minutes := whole % 3600 / 60
  let secs := whole % 60
  let millis := ⌊(seconds - (whole : ℚ)) * 1000⌋
  zfill 2 hours ++ ':' :: zfill 2 minutes ++ ':' :: zfill 2 secs ++ ',' :: zfill 3 millis

/-! ## Cue extraction (`parse_xml` / `_convert_to_dict`)

The parsed XML document is embedded post-`ET.parse`: a `sound` element is a
record of its `tts` attribute and the text of its `start`, `stop`,
`ttsdata/text` and `ttsdata/voice` children.  `none` means the child element
(or attribute) is missing; an element that is present but has no text is
embedded as the empty string, which Python's truthiness tests treat exactly
like `None` everywhere this code reads it. -/

/-- One `sound` element of the Movie XML document. -/
structure Sound where
  tts : Option Str
  start : Option Str
  stop : Option Str
  text : Option Str
  voice : Option Str
  deriving DecidableEq, Repr

/-- The parsed document: the root's `duration` attribute (if present) and
its `sound` descendants in document order. -/
structure XmlDoc where
  duration : Option Str
  sounds : List Sound
  deriving DecidableEq, Repr

/-- The fatal document-level failures of `parse_xml`. -/
inductive DocError where
  /-- `ET.ParseError`: the input is not well-formed XML. -/
  | malformed
  /-- `ValueError`: the root element has no `duration` attribute. -/
  | missingDuration
  /-- `ValueError`: `float(duration_str)` fails. -/
  | invalidDuration
  deriving DecidableEq, Repr

/-- Numeric value of a digit string. -/
def digitsVal (ds : Str) : ℕ :=
  ds.foldl (fun a c => a * 10 + (c.toNat - '0'.toNat)) 0

/-- Python's built-in `float(string)` restricted to plain decimal literals:
optional surrounding whitespace, optional sign, digits with at most one
decimal point.  `none` models the `ValueError` raised on any other input. -/
def pyFloat (s : Str) : Option ℚ :=
  let t := pyStrip s
  let su : ℚ × Str :=
    match t with
    | '-' :: rest => (-1, rest)
    | '+' :: rest => (1, rest)
    | _ => (1, t)
  let intPart := su.2.takeWhile Char.isDigit
  let rest := su.2.dropWhile Char.isDigit
  match rest with
  | [] => if intPart = [] then none else some (su.1 * digitsVal intPart)
  | '.' :: frac =>
      if frac.all Char.isDigit ∧ (intPart ≠ [] ∨ frac ≠ []) then
        some (su.1 * ((digitsVal intPart : ℚ) + digitsVal frac / (10 : ℚ) ^ frac.length))
      else none
  | _ => none

/-- The body of the `for sound in sound_elements` loop of
`_convert_to_dict`: `none` models `continue` (missing `start`/`stop`
element, `ValueError` from `float`, or empty trimmed text). -/
def extract_sound (s : Sound) : Option Cue :=
  match s.start, s.stop with
  | some st, some sp =>
      let startVal? : Option ℚ := if st = [] then some 0 else pyFloat st
      let stopVal? : Option ℚ := if sp = [] then some 0 else pyFloat sp
      match startVal?, stopVal? with
      | some startVal, some stopVal =>
          let text : Str := match s.text with | some t => t | none => []
          let voice : Str :=
            match s.voice with
            | some v => if v ≠ [] then v else "Unknown".toList
            | none => "Unknown".toList
          if pyStrip text = [] then none
          else some ⟨startVal, stopVal, pyStrip text, pyCapitalize voice⟩
      | _, _ => none
  | _, _ => none

/-- `SubtitleProcessor._convert_to_dict`: select the `tts='1'` sound
elements, extract a cue from each (skipping malformed ones), sort stably by
start time, merge overlaps, and split long entries. -/
def convert_to_dict (cfg : Config) (doc : XmlDoc) : List Cue :=
  let soundElements := doc.sounds.filter (fun s => s.tts = some ['1'])
  let subtitles := soundElements.filterMap extract_sound
  let sorted := subtitles.mergeSort (fun a b => a.start ≤ b.start)
  let merged := merge_overlapping sorted
  merged.flatMap (split_subtitle_entry cfg)

/-- `SubtitleProcessor.parse_xml` after file loading: a `none` input models
an `ET.ParseError` from `ET.parse`; otherwise the root's `duration`
attribute must be present and numeric, and the cue list is extracted. -/
def parse_xml (cfg : Config) (input : Option XmlDoc) : Except DocError (List Cue) :=
  match input with
  | none => .error .malformed
  | some doc =>
      match doc.duration with
      | none => .error .missingDuration
      | some d =>
          match pyFloat d with
          | none => .error .invalidDuration
          | some _ => .ok (convert_to_dict cfg doc)

/-! ## Post-processing (`apply_offset`) -/

/-- `SubtitleProcessor.apply_offset`: add a frame offset to every cue's
start and stop (the Python version mutates in place; the embedding returns
the updated list). -/
def apply_offset (subs : List Cue) (offset : ℚ) : List Cue :=
  subs.map (fun c => { c with start := c.start + offset, stop := c.stop + offset })

/-! ## Lemmas about Python whitespace splitting -/

lemma pySplitAux_nil (acc : Str) :
    pySplitAux [] acc = if acc = [] then [] else [acc.reverse] := rfl

/-- Splitting a string of only whitespace yields just the pending token. -/
lemma pySplitAux_all_space (t : Str) (ht : ∀ c ∈ t, pyIsSpace c = true) (acc : Str) :
    pySplitAux t acc = if acc = [] then [] else [acc.reverse] := by
  induction t generalizing acc with
  | nil => rfl
  | cons c cs ih =>
      have hc : pyIsSpace c = true := ht c (by simp)
      have ih0 := ih (fun x hx => ht x (List.mem_cons_of_mem c hx)) []
      rw [pySplitAux, if_pos hc]
      by_cases ha : acc = []
      · rw [if_pos ha, if_pos ha, ih0, if_pos rfl]
      · rw [if_neg ha, if_neg ha, ih0, if_pos rfl]

/-- Trailing whitespace does not change the split. -/
lemma pySplitAux_append_spaces (t : Str) (ht : ∀ c ∈ t, pyIsSpace c = true) :
    ∀ (cs acc : Str), pySplitAux (cs ++ t) acc = pySplitAux cs acc := by
  intro cs
  induction cs with
  | nil =>
      intro acc
      rw [List.nil_append, pySplitAux_all_space t ht acc, pySplitAux_nil]
  | cons c cs ih =>
      intro acc
      rw [List.cons_append, pySplitAux, pySplitAux]
      by_cases hc : pyIsSpace c = true
      · rw [if_pos hc, if_pos hc]
        by_cases ha : acc = []
        · rw [if_pos ha, if_pos ha, ih []]
        · rw [if_neg ha, if_neg ha, ih []]
      · rw [if_neg hc, if_neg hc, ih (c :: acc)]

/-- Leading whitespace does not change the split. -/
lemma pySplitAux_spaces_prepend (t : Str) (ht : ∀ c ∈ t, pyIsSpace c = true) :
    ∀ cs : Str, pySplitAux (t ++ cs) [] = pySplitAux cs [] := by
  induction t with
  | nil => intro cs; rfl
  | cons c cs' ih =>
      intro cs
      have hc : pyIsSpace c = true := ht c (by simp)
      rw [List.cons_append, pySplitAux, if_pos hc, if_pos rfl,
        ih (fun x hx => ht x (List.mem_cons_of_mem c hx))]

lemma pySplit_rstrip (s : Str) : pySplit (rstrip s) = pySplit s := by
  have hdecomp : s = rstrip s ++ (s.reverse.takeWhile pyIsSpace).reverse := by
    rw [rstrip]
    conv_lhs => rw [← List.reverse_reverse s,
      ← List.takeWhile_append_dropWhile pyIsSpace s.reverse]
    rw [List.reverse_append]
  have ht : ∀ c ∈ (s.reverse.takeWhile pyIsSpace).reverse, pyIsSpace c = true := by
    intro c hc
    rw [List.mem_reverse] at hc
    exact List.mem_takeWhile_imp hc
  conv_rhs => rw [hdecomp]
  rw [pySplit, pySplit, pySplitAux_append_spaces _ ht]

lemma pySplit_lstrip (s : Str) : pySplit (lstrip s) = pySplit s := by
  have hdecomp : s = s.takeWhile pyIsSpace ++ lstrip s :=
    (List.takeWhile_append_dropWhile pyIsSpace s).symm
  have ht : ∀ c ∈ s.takeWhile pyIsSpace, pyIsSpace c = true := fun c hc =>
    List.mem_takeWhile_imp hc
  conv_rhs => rw [hdecomp]
  rw [pySplit, pySplit, pySplitAux_spaces_prepend _ ht]

/-- Python `s.strip()` does not change `s.split()`. -/
lemma pySplit_strip (s : Str) : pySplit (pyStrip s) = pySplit s := by
  rw [pyStrip, pySplit_lstrip, pySplit_rstrip]

/-- Splitting a whitespace-free string yields the string as one token. -/
lemma pySplitAux_no_space (w : Str) (hw : ∀ c ∈ w, pyIsSpace c = false) :
    ∀ acc : Str, pySplitAux w acc =
      if acc.reverse ++ w = [] then [] else [acc.reverse ++ w] := by
  induction w with
  | nil =>
      intro acc
      rw [pySplitAux_nil, List.append_nil]
      by_cases ha : acc = []
      · subst ha; rfl
      · rw [if_neg ha, if_neg (by simpa using ha)]
  | cons c cs ih =>
      intro acc
      have hc : pyIsSpace c = false := hw c (by simp)
      rw [pySplitAux, if_neg (by simp [hc]),
        ih (fun x hx => hw x (List.mem_cons_of_mem c hx)) (c :: acc)]
      have h1 : (c :: acc).reverse ++ cs ≠ [] := by simp
      have h2 : acc.reverse ++ c :: cs ≠ [] := by simp
      rw [if_neg h1, if_neg h2, List.reverse_cons, List.append_assoc,
        List.singleton_append]

lemma pySplit_token (w : Str) (hne : w ≠ []) (hw : ∀ c ∈ w, pyIsSpace c = false) :
    pySplit w = [w] := by
  rw [pySplit, pySplitAux_no_space w hw [], List.reverse_nil, List.nil_append,
    if_neg hne]

/-- Splitting across a whitespace separator concatenates the splits. -/
lemma pySplitAux_sep (sep : Char) (hsep : pyIsSpace sep = true) (b : Str) :
    ∀ (a acc : Str), pySplitAux (a ++ sep :: b) acc = pySplitAux a acc ++ pySplit b := by
  intro a
  induction a with
  | nil =>
      intro acc
      rw [List.nil_append]
      conv_lhs => rw [pySplitAux]
      rw [if_pos hsep, pySplitAux_nil]
      by_cases ha : acc = []
      · rw [if_pos ha, if_pos ha, List.nil_append]; rfl
      · rw [if_neg ha, if_neg ha, List.singleton_append]; rfl
  | cons c cs ih =>
      intro acc
      rw [List.cons_append, pySplitAux, pySplitAux]
      by_cases hc : pyIsSpace c = true
      · rw [if_pos hc, if_pos hc]
        by_cases ha : acc = []
        · rw [if_pos ha, if_pos ha, ih []]
        · rw [if_neg ha, if_neg ha, ih [], List.cons_append]
      · rw [if_neg hc, if_neg hc, ih (c :: acc)]

lemma pySplit_append_sep (sep : Char) (hsep : pyIsSpace sep = true) (a b : Str) :
    pySplit (a ++ sep :: b) = pySplit a ++ pySplit b :=
  pySplitAux_sep sep hsep b a []

/-- Every token produced by `s.split()` is non-empty and whitespace-free. -/
lemma tokens_of_pySplitAux :
    ∀ (s acc : Str), (∀ c ∈ acc, pyIsSpace c = false) →
      ∀ w ∈ pySplitAux s acc, w ≠ [] ∧ ∀ c ∈ w, pyIsSpace c = false := by
  intro s
  induction s with
  | nil =>
      intro acc hacc w hw
      rw [pySplitAux_nil] at hw
      by_cases ha : acc = []
      · rw [if_pos ha] at hw; exact absurd hw (List.not_mem_nil w)
      · rw [if_neg ha] at hw
        rw [List.mem_singleton] at hw
        subst hw
        exact ⟨by simpa using ha, fun c hc => hacc c (List.mem_reverse.mp hc)⟩
  | cons c cs ih =>
      intro acc hacc w hw
      rw [pySplitAux] at hw
      by_cases hc : pyIsSpace c = true
      · rw [if_pos hc] at hw
        by_cases ha : acc = []
        · rw [if_pos ha] at hw
          exact ih [] (by intro x hx; exact absurd hx (List.not_mem_nil x)) w hw
        · rw [if_neg ha] at hw
          rcases List.mem_cons.mp hw with h | h
          · subst h
            exact ⟨by simpa using ha, fun x hx => hacc x (List.mem_reverse.mp hx)⟩
          · exact ih [] (by intro x hx; exact absurd hx (List.not_mem_nil x)) w h
      · rw [if_neg hc] at hw
        refine ih (c :: acc) ?_ w hw
        intro x hx
        rcases List.mem_cons.mp hx with h | h
        · subst h; exact Bool.eq_false_iff.mpr hc
        · exact hacc x h

lemma tokens_of_pySplit (s : Str) :
    ∀ w ∈ pySplit s, w ≠ [] ∧ ∀ c ∈ w, pyIsSpace c = false :=
  tokens_of_pySplitAux s [] (fun x hx => absurd hx (List.not_mem_nil x))

/-- Appending one whitespace-free token across a space adds exactly one word. -/
lemma pySplit_append_word (cur w : Str) (hne : w ≠ [])
    (hw : ∀ c ∈ w, pyIsSpace c = false) :
    (pySplit (cur ++ ' ' :: w)).length = (pySplit cur).length + 1 := by
  rw [pySplit_append_sep ' ' rfl cur w, List.length_append, pySplit_token w hne hw,
    List.length_singleton]

/-! ## Lemmas about the segment splitter -/

/-- Loop invariant of the word-accumulation loop: if the pending segment has
at most `maxW` words and every remaining word is a real token, then every
emitted segment has at most `maxW` words. -/
lemma segLoop_bound (maxW : ℕ) (hmax : 1 ≤ maxW) :
    ∀ (ws : List Str) (cur : Str),
      (∀ w ∈ ws, w ≠ [] ∧ ∀ c ∈ w, pyIsSpace c = false) →
      (pySplit cur).length ≤ maxW →
      ∀ seg ∈ segLoop maxW cur ws, (pySplit seg).length ≤ maxW := by
  intro ws
  induction ws with
  | nil =>
      intro cur _ hcur seg hseg
      rw [segLoop] at hseg
      by_cases hc : cur ≠ []
      · rw [if_pos hc, List.mem_singleton] at hseg
        subst hseg
        rwa [pySplit_strip]
      · rw [if_neg hc] at hseg
        exact absurd hseg (List.not_mem_nil seg)
  | cons w ws ih =>
      intro cur hws hcur seg hseg
      have hw := hws w (by simp)
      have hws' : ∀ x ∈ ws, x ≠ [] ∧ ∀ c ∈ x, pyIsSpace c = false := fun x hx =>
        hws x (List.mem_cons_of_mem w hx)
      have hw1 : (pySplit w).length ≤ maxW := by
        rw [pySplit_token w hw.1 hw.2]
        simpa using hmax
      rw [segLoop] at hseg
      by_cases hcond : cur ≠ [] ∧ (endsWithSentence cur = true ∨
          maxW ≤ if cur ≠ [] then (pySplit cur).length else 0)
      · rw [if_pos hcond] at hseg
        rcases List.mem_cons.mp hseg with h | h
        · subst h
          rwa [pySplit_strip]
        · exact ih w hws' hw1 seg h
      · rw [if_neg hcond] at hseg
        by_cases hne : cur ≠ []
        · have hlt : (pySplit cur).length < maxW := by
            by_contra hge
            exact hcond ⟨hne, Or.inr (by rw [if_pos hne]; omega)⟩
          have htest : (pySplit (cur ++ ' ' :: w)).length ≤ maxW := by
            rw [pySplit_append_word cur w hw.1 hw.2]
            omega
          rw [if_pos hne] at hseg
          exact ih (cur ++ ' ' :: w) hws' htest seg hseg
        · rw [if_neg hne] at hseg
          exact ih w hws' hw1 seg hseg

/-- Every segment emitted by the segmentation phase respects the word cap. -/
lemma splitSegments_bound (maxW : ℕ) (hmax : 1 ≤ maxW) (text : Str) :
    ∀ seg ∈ splitSegments maxW text, (pySplit seg).length ≤ maxW := by
  intro seg hseg
  rw [splitSegments, List.mem_flatMap] at hseg
  obtain ⟨p, _, hmem⟩ := hseg
  exact segLoop_bound maxW hmax (pySplit p) [] (tokens_of_pySplit p)
    (by rw [pySplit, pySplitAux_nil, if_pos rfl]; exact Nat.zero_le maxW) seg hmem

/-! ## Lemmas about the timing allocator -/

/-- The allocator hands back exactly one duration per segment. -/
lemma segment_durations_length (cfg : Config) (segments : List Str)
    (totalDuration : ℚ) :
    (segment_durations cfg segments totalDuration).length = segments.length := by
  rw [segment_durations]
  split_ifs <;> simp

lemma pinLast_cons_of_ne_nil (stp : ℚ) (c : Cue) (l : List Cue) (h : l ≠ []) :
    pinLast stp (c :: l) = c :: pinLast stp l := by
  cases l with
  | nil => exact absurd rfl h
  | cons x xs => rfl

lemma pinLast_ne_nil (stp : ℚ) : ∀ l : List Cue, l ≠ [] → pinLast stp l ≠ [] := by
  intro l h
  cases l with
  | nil => exact absurd rfl h
  | cons x xs => cases xs <;> simp [pinLast]

lemma pinLast_length (stp : ℚ) : ∀ l : List Cue, (pinLast stp l).length = l.length := by
  intro l
  induction l with
  | nil => rfl
  | cons x xs ih =>
      cases xs with
      | nil => rfl
      | cons y ys => simpa [pinLast] using ih

lemma layOut_length (sp : Str) :
    ∀ (segs : List Str) (ds : List ℚ) (s : ℚ),
      (layOut sp s segs ds).length = min segs.length ds.length := by
  intro segs
  induction segs with
  | nil => intro ds s; simp [layOut]
  | cons seg segs ih =>
      intro ds s
      cases ds with
      | nil => simp [layOut]
      | cons d ds => simpa [layOut, Nat.succ_min_succ] using ih ds (s + d)

/-- Head start, pinned last stop, and exact (telescoping) duration total of
the laid-out and pinned cue list. -/
lemma pinLayOut_spec :
    ∀ (segs : List Str) (ds : List ℚ) (sp : Str) (s stp : ℚ),
      segs ≠ [] → segs.length = ds.length →
      (pinLast stp (layOut sp s segs ds)).head?.map Cue.start = some s ∧
      (pinLast stp (layOut sp s segs ds)).getLast?.map Cue.stop = some stp ∧
      ((pinLast stp (layOut sp s segs ds)).map (fun c => c.stop - c.start)).sum
        = stp - s := by
  intro segs
  induction segs with
  | nil => intro ds sp s stp h _; exact absurd rfl h
  | cons seg segs ih =>
      intro ds sp s stp _ hlen
      cases ds with
      | nil => simp at hlen
      | cons d ds =>
          cases segs with
          | nil =>
              cases ds with
              | nil =>
                  refine ⟨rfl, rfl, ?_⟩
                  simp [layOut, pinLast]
              | cons d2 ds2 => simp at hlen
          | cons seg2 segs2 =>
              have hlen' : (seg2 :: segs2).length = ds.length := by
                simpa using hlen
              have hne : layOut sp (s + d) (seg2 :: segs2) ds ≠ [] := by
                cases ds with
                | nil => simp at hlen'
                | cons d2 ds2 => simp [layOut]
              have ihh := ih ds sp (s + d) stp (by simp) hlen'
              have hstep :
                  layOut sp s (seg :: seg2 :: segs2) (d :: ds) =
                    ⟨s, s + d, seg, sp⟩ :: layOut sp (s + d) (seg2 :: segs2) ds :=
                rfl
              rw [hstep, pinLast_cons_of_ne_nil stp _ _ hne]
              refine ⟨rfl, ?_, ?_⟩
              · rcases hpin : pinLast stp (layOut sp (s + d) (seg2 :: segs2) ds) with
                  _ | ⟨y, ys⟩
                · exact absurd hpin (pinLast_ne_nil stp _ hne)
                · rw [hpin] at ihh
                  rw [List.getLast?_cons_cons]
                  exact ihh.2.1
              · rw [List.map_cons, List.sum_cons, ihh.2.2]
                ring

/-! ## Lemmas about the timestamp formatter -/

lemma pyInt_of_nonneg (q : ℚ) (h : 0 ≤ q) : pyInt q = ⌊q⌋ := if_pos h

/-- The floor of a rational quotient by a positive natural equals integer
division of the floor: `⌊a / n⌋ = ⌊a⌋ / n`. -/
lemma floor_div_natCast (a : ℚ) (n : ℕ) (hn : 0 < n) :
    ⌊a / (n : ℚ)⌋ = ⌊a⌋ / (n : ℤ) := by
  have hnq : (0 : ℚ) < (n : ℚ) := by exact_mod_cast hn
  have hnz : (0 : ℤ) < (n : ℤ) := by exact_mod_cast hn
  rw [Int.floor_eq_iff]
  constructor
  · have h1 : ((⌊a⌋ / (n : ℤ) : ℤ) : ℚ) ≤ (⌊a⌋ : ℚ) / (n : ℚ) := by
      rw [← Rat.floor_intCast_div_natCast ⌊a⌋ n]
      exact Int.floor_le _
    refine h1.trans ?_
    gcongr
    exact Int.floor_le a
  · have h2 : ⌊a⌋ < (⌊a⌋ / (n : ℤ) + 1) * (n : ℤ) :=
      Int.lt_ediv_add_one_mul_self ⌊a⌋ hnz
    rw [div_lt_iff₀ hnq]
    have h3 : a < (⌊a⌋ : ℚ) + 1 := Int.lt_floor_add_one a
    have h4 : (⌊a⌋ : ℚ) + 1 ≤ ((⌊a⌋ / (n : ℤ) + 1) * (n : ℤ) : ℤ) := by
      exact_mod_cast h2
    calc a < (⌊a⌋ : ℚ) + 1 := h3
      _ ≤ (((⌊a⌋ / (n : ℤ) + 1) * (n : ℤ) : ℤ) : ℚ) := h4
      _ = (((⌊a⌋ / (n : ℤ) : ℤ) : ℚ) + 1) * (n : ℚ) := by push_cast; ring

lemma pyMod_nonneg (a b : ℚ) (hb : 0 < b) : 0 ≤ pyMod a b := by
  rw [pyMod]
  have h1 : b * (⌊a / b⌋ : ℚ) ≤ b * (a / b) :=
    mul_le_mul_of_nonneg_left (Int.floor_le (a / b)) hb.le
  rw [mul_div_cancel₀ a hb.ne'] at h1
  linarith

/-- The floor of the Python float modulus is the integer modulus of the
floor: `⌊a % n⌋ = ⌊a⌋ % n`. -/
lemma floor_pyMod (a : ℚ) (n : ℕ) (hn : 0 < n) :
    ⌊pyMod a (n : ℚ)⌋ = ⌊a⌋ % (n : ℤ) := by
  rw [pyMod]
  have hcast : (n : ℚ) * (⌊a / (n : ℚ)⌋ : ℚ) =
      (((n : ℤ) * ⌊a / (n : ℚ)⌋ : ℤ) : ℚ) := by push_cast; ring
  rw [hcast, Int.floor_sub_int, floor_div_natCast a n hn, Int.emod_def]

/-- `format_time` computes exactly what the specification's wording
describes, for nonnegative frame counts and positive frame rates. -/
lemma format_time_eq_spec (frames : ℚ) (fps : ℤ)
    (hf : 0 ≤ frames) (hfps : 0 < fps) :
    format_time frames fps = format_time_spec frames fps := by
  simp only [format_time, format_time_spec]
  set s := frames / (fps : ℚ) with hs
  have hs0 : 0 ≤ s := div_nonneg hf (by exact_mod_cast hfps.le)
  have hhours : pyInt (pyFloorDiv s 3600) = ⌊s⌋ / 3600 := by
    rw [pyFloorDiv, pyInt_of_nonneg _ (by
        exact_mod_cast Int.floor_nonneg.mpr (by positivity)),
      Int.floor_intCast]
    have := floor_div_natCast s 3600 (by norm_num)
    push_cast at this
    exact this
  have hmod3600 : (3600 : ℚ) = ((3600 : ℕ) : ℚ) := by norm_num
  have hmod60 : (60 : ℚ) = ((60 : ℕ) : ℚ) := by norm_num
  have hminutes : pyInt (pyFloorDiv (pyMod s 3600) 60) = ⌊s⌋ % 3600 / 60 := by
    rw [pyFloorDiv, pyInt_of_nonneg _ (by
        refine Int.cast_nonneg.mpr (Int.floor_nonneg.mpr ?_)
        have := pyMod_nonneg s 3600 (by norm_num)
        positivity),
      Int.floor_intCast]
    have h1 := floor_div_natCast (pyMod s 3600) 60 (by norm_num)
    push_cast at h1
    rw [h1]
    have h2 := floor_pyMod s 3600 (by norm_num)
    push_cast at h2
    rw [h2]
  have hsecs : pyInt (pyMod s 60) = ⌊s⌋ % 60 := by
    rw [pyInt_of_nonneg _ (pyMod_nonneg s 60 (by norm_num))]
    have h2 := floor_pyMod s 60 (by norm_num)
    push_cast at h2
    exact h2
  have hmod1 : pyMod s 1 = s - (⌊s⌋ : ℚ) := by
    rw [pyMod]
    simp
  have hmillis : pyInt (pyMod s 1 * 1000) = ⌊(s - (⌊s⌋ : ℚ)) * 1000⌋ := by
    rw [hmod1, pyInt_of_nonneg]
    have hfr : 0 ≤ s - (⌊s⌋ : ℚ) := sub_nonneg.mpr (Int.floor_le s)
    positivity
  rw [hhours, hminutes, hsecs, hmillis]

/-! ## Lemmas about the overlap merger -/

/-- The accumulator invariant of `mergeRev`: the reversed merged list is
overlap-free (read right-to-left). -/
lemma mergeRev_chain' (subs : List Cue) :
    ∀ acc : List Cue, List.Chain' (fun a b => b.stop ≤ a.start) acc →
      List.Chain' (fun a b => b.stop ≤ a.start) (mergeRev acc subs) := by
  induction subs with
  | nil =>
      intro acc h
      cases acc with
      | nil => exact h
      | cons x xs => exact h
  | cons sub rest ih =>
      intro acc h
      match acc with
      | [] => exact ih [sub] (List.chain'_singleton sub)
      | last :: accRest =>
          by_cases hov : sub.start < last.stop
          · rw [mergeRev, if_pos hov]
            apply ih
            rw [List.chain'_cons'] at h ⊢
            refine ⟨fun y hy => ?_, h.2⟩
            simpa [mergeCues] using h.1 y hy
          · rw [mergeRev, if_neg hov]
            apply ih
            rw [List.chain'_cons']
            refine ⟨fun y hy => ?_, h⟩
            simp only [List.head?_cons, Option.mem_def, Option.some.injEq] at hy
            subst hy
            exact le_of_not_lt hov

/-- The output of `merge_overlapping` is always overlap-free. -/
lemma merge_overlapping_chain' (subs : List Cue) :
    List.Chain' (fun a b => a.stop ≤ b.start) (merge_overlapping subs) := by
  unfold merge_overlapping
  rw [List.chain'_reverse]
  exact mergeRev_chain' subs [] List.chain'_nil

/-- On an overlap-free remainder, `mergeRev` only reverses. -/
lemma mergeRev_noop (subs : List Cue) :
    ∀ (last : Cue) (accRest : List Cue),
      List.Chain' (fun a b => a.stop ≤ b.start) (last :: subs) →
      mergeRev (last :: accRest) subs = subs.reverse ++ last :: accRest := by
  induction subs with
  | nil => intro last accRest _; rfl
  | cons s rest ih =>
      intro last accRest h
      rw [List.chain'_cons] at h
      have hov : ¬ s.start < last.stop := not_lt.mpr h.1
      rw [mergeRev, if_neg hov, ih s (last :: accRest) h.2]
      simp

/-- `_merge_overlapping` is the identity on overlap-free input. -/
lemma merge_overlapping_noop (subs : List Cue)
    (h : List.Chain' (fun a b => a.stop ≤ b.start) subs) :
    merge_overlapping subs = subs := by
  cases subs with
  | nil => rfl
  | cons x xs =>
      unfold merge_overlapping
      have h1 : mergeRev [] (x :: xs) = mergeRev [x] xs := by rw [mergeRev]
      rw [h1, mergeRev_noop xs x [] h]
      simp

/-! ## Lemmas about the cue extractor -/

/-- A sound element from which no cue is extracted contributes nothing to
the conversion, wherever it sits in the document. -/
lemma convert_to_dict_skip (cfg : Config) (dur : Option Str)
    (l1 l2 : List Sound) (s : Sound) (h : extract_sound s = none) :
    convert_to_dict cfg ⟨dur, l1 ++ s :: l2⟩ = convert_to_dict cfg ⟨dur, l1 ++ l2⟩ := by
  have hlists :
      ((l1 ++ s :: l2).filter (fun x => x.tts = some ['1'])).filterMap extract_sound =
      ((l1 ++ l2).filter (fun x => x.tts = some ['1'])).filterMap extract_sound := by
    by_cases hp : s.tts = some ['1']
    · simp [List.filter_append, List.filterMap_append, hp, h]
    · simp [List.filter_append, List.filterMap_append, hp]
  simp only [convert_to_dict]
  rw [hlists]

/-- Missing or present-but-unparsable timing text makes the extractor skip
the entry. -/
lemma extract_sound_none_of_bad_timing (s : Sound)
    (h : s.start = none ∨ s.stop = none ∨
      (∃ st, s.start = some st ∧ st ≠ [] ∧ pyFloat st = none) ∨
      (∃ sp, s.stop = some sp ∧ sp ≠ [] ∧ pyFloat sp = none)) :
    extract_sound s = none := by
  obtain ⟨tts, st, sp, tx, vc⟩ := s
  rcases h with h | h | ⟨stv, hst, hne, hpf⟩ | ⟨spv, hsp, hne, hpf⟩
  · simp only at h
    subst h
    rfl
  · simp only at h
    subst h
    cases st <;> rfl
  · simp only at hst
    subst hst
    cases sp with
    | none => rfl
    | some spv => simp [extract_sound, hne, hpf]
  · simp only at hsp
    subst hsp
    cases st with
    | none => rfl
    | some stv => simp [extract_sound, hne, hpf]

/-! ## Claim theorems: overlap merger -/

/-- C5: `parse_xml` fails fatally exactly on malformed markup and on a
missing or non-numeric root duration attribute (returning no cue list),
while an individual candidate entry with missing or unparsable timing fields
is skipped and extraction completes with the remaining cues. -/
theorem parse_xml_error_policy :
    (∀ cfg : Config, parse_xml cfg none = .error DocError.malformed) ∧
    (∀ (cfg : Config) (doc : XmlDoc), doc.duration = none →
        parse_xml cfg (some doc) = .error DocError.missingDuration) ∧
    (∀ (cfg : Config) (doc : XmlDoc) (d : Str), doc.duration = some d →
        pyFloat d = none →
        parse_xml cfg (some doc) = .error DocError.invalidDuration) ∧
    (∀ (cfg : Config) (doc : XmlDoc) (d : Str) (q : ℚ), doc.duration = some d →
        pyFloat d = some q →
        parse_xml cfg (some doc) = .ok (convert_to_dict cfg doc)) ∧
    (∀ (cfg : Config) (dur : Option Str) (l1 l2 : List Sound) (s : Sound),
        (s.start = none ∨ s.stop = none ∨
          (∃ st, s.start = some st ∧ st ≠ [] ∧ pyFloat st = none) ∨
          (∃ sp, s.stop = some sp ∧ sp ≠ [] ∧ pyFloat sp = none)) →
        convert_to_dict cfg ⟨dur, l1 ++ s :: l2⟩ =
          convert_to_dict cfg ⟨dur, l1 ++ l2⟩) := by
  refine ⟨fun cfg => rfl, ?_, ?_, ?_, ?_⟩
  · intro cfg doc hdur
    obtain ⟨dur, sounds⟩ := doc
    simp only at hdur
    subst hdur
    rfl
  · intro cfg doc d hdur hpf
    obtain ⟨dur, sounds⟩ := doc
    simp only at hdur
    subst hdur
    simp [parse_xml, hpf]
  · intro cfg doc d q hdur hpf
    obtain ⟨dur, sounds⟩ := doc
    simp only at hdur
    subst hdur
    simp [parse_xml, hpf]
  · intro cfg dur l1 l2 s hbad
    exact convert_to_dict_skip cfg dur l1 l2 s (extract_sound_none_of_bad_timing s hbad)

/-- Witness for C5 at concrete inputs: a document without a duration
attribute fails fatally, and a document whose only sound element has
unparsable start text yields the empty cue list. -/
theorem parse_xml_error_policy_witness :
    parse_xml ⟨10, 5/2⟩ (some ⟨none, []⟩) = .error DocError.missingDuration ∧
    convert_to_dict ⟨10, 5/2⟩
        ⟨some "100".toList,
          [] ++ (⟨some ['1'], some "abc".toList, some "5".toList,
              some "Hi".toList, some ['a']⟩ : Sound) :: []⟩ =
      convert_to_dict ⟨10, 5/2⟩ ⟨some "100".toList, [] ++ []⟩ :=
  ⟨parse_xml_error_policy.2.1 ⟨10, 5/2⟩ ⟨none, []⟩ rfl,
   parse_xml_error_policy.2.2.2.2 ⟨10, 5/2⟩ (some "100".toList) [] []
      ⟨some ['1'], some "abc".toList, some "5".toList, some "Hi".toList, some ['a']⟩
      (Or.inr (Or.inr (Or.inl ⟨"abc".toList, rfl, by decide, by decide⟩)))⟩

/-- C9 counterexample: a candidate entry with non-empty text whose start
text `"abc"` is present but unparsable is skipped entirely — no cue with
start 0.0 is emitted, contrary to the claim. -/
theorem extractor_unparsable_start_skipped :
    extract_sound ⟨some ['1'], some "abc".toList, some "5".toList,
      some "Hi".toList, some ['a']⟩ = none := by
  decide

/-- C9 (amended): an entry with non-empty trimmed text whose start (or stop)
sub-element's text is absent/empty still yields a cue with that timing field
0.0; but an entry whose start (or stop) text is present and unparsable as a
number is skipped entirely. -/
theorem extractor_timing_defaults :
    (∀ (tts vc : Option Str) (sp txt : Str),
        (if sp = [] then some (0 : ℚ) else pyFloat sp) ≠ none →
        pyStrip txt ≠ [] →
        ∃ c, extract_sound ⟨tts, some [], some sp, some txt, vc⟩ = some c ∧
          c.start = 0) ∧
    (∀ (tts vc : Option Str) (st txt : Str),
        (if st = [] then some (0 : ℚ) else pyFloat st) ≠ none →
        pyStrip txt ≠ [] →
        ∃ c, extract_sound ⟨tts, some st, some [], some txt, vc⟩ = some c ∧
          c.stop = 0) ∧
    (∀ (s : Sound) (st : Str), s.start = some st → st ≠ [] → pyFloat st = none →
        extract_sound s = none) ∧
    (∀ (s : Sound) (sp : Str), s.stop = some sp → sp ≠ [] → pyFloat sp = none →
        extract_sound s = none) := by
  refine ⟨?_, ?_, ?_, ?_⟩
  · intro tts vc sp txt hsp htxt
    obtain ⟨sv, hsv⟩ := Option.ne_none_iff_exists'.mp hsp
    refine ⟨⟨0, sv, pyStrip txt,
      pyCapitalize (match vc with
        | some v => if v ≠ [] then v else "Unknown".toList
        | none => "Unknown".toList)⟩, ?_, rfl⟩
    simp only [extract_sound, hsv]
    simp [htxt]
  · intro tts vc st txt hst htxt
    obtain ⟨sv, hsv⟩ := Option.ne_none_iff_exists'.mp hst
    refine ⟨⟨sv, 0, pyStrip txt,
      pyCapitalize (match vc with
        | some v => if v ≠ [] then v else "Unknown".toList
        | none => "Unknown".toList)⟩, ?_, rfl⟩
    simp only [extract_sound, hsv]
    simp [htxt]
  · intro s st hst hne hpf
    exact extract_sound_none_of_bad_timing s (Or.inr (Or.inr (Or.inl ⟨st, hst, hne, hpf⟩)))
  · intro s sp hsp hne hpf
    exact extract_sound_none_of_bad_timing s (Or.inr (Or.inr (Or.inr ⟨sp, hsp, hne, hpf⟩)))

/-- Witness for C9's amended claim at a concrete entry with empty start
text. -/
theorem extractor_timing_defaults_witness :
    ∃ c, extract_sound ⟨some ['1'], some [], some "5".toList,
        some "Hi".toList, some ['a']⟩ = some c ∧ c.start = 0 :=
  extractor_timing_defaults.1 (some ['1']) (some ['a']) "5".toList "Hi".toList
    (by decide) (by decide)

/-- C10: every extracted cue's speaker is the raw voice label (default
`"Unknown"`) passed through Python `str.capitalize`: first character
upper-cased, the rest lower-cased, so `"JOHN"` becomes `"John"` and
`"McCoy"` becomes `"Mccoy"`. -/
theorem speaker_capitalized :
    (∀ (s : Sound) (c : Cue), extract_sound s = some c →
        c.speaker = pyCapitalize (match s.voice with
          | some v => if v ≠ [] then v else "Unknown".toList
          | none => "Unknown".toList)) ∧
    pyCapitalize "JOHN".toList = "John".toList ∧
    pyCapitalize "McCoy".toList = "Mccoy".toList := by
  refine ⟨?_, by decide, by decide⟩
  intro s c h
  obtain ⟨tts, st, sp, tx, vc⟩ := s
  cases st with
  | none => exact absurd h (by simp [extract_sound])
  | some stv =>
      cases sp with
      | none => exact absurd h (by simp [extract_sound])
      | some spv =>
          simp only [extract_sound] at h
          split at h
          · split at h
            · exact absurd h.symm (Option.some_ne_none _)
            · obtain rfl := Option.some_inj.mp h
              rfl
          · exact absurd h (by simp)

/-- Witness for C10 at a concrete entry with voice label `"JOHN"`. -/
theorem speaker_capitalized_witness :
    (⟨0, 0, "Hi".toList, "John".toList⟩ : Cue).speaker =
      pyCapitalize (match (⟨some ['1'], some [], some [], some "Hi".toList,
          some "JOHN".toList⟩ : Sound).voice with
        | some v => if v ≠ [] then v else "Unknown".toList
        | none => "Unknown".toList) :=
  speaker_capitalized.1
    ⟨some ['1'], some [], some [], some "Hi".toList, some "JOHN".toList⟩
    ⟨0, 0, "Hi".toList, "John".toList⟩ (by decide)

/-- C1: for every input cue list in non-decreasing start order, the list
returned by `_merge_overlapping` contains no temporal overlaps: every
adjacent output pair satisfies `stop[i] ≤ start[i+1]`. -/
theorem merge_output_no_overlap (subs : List Cue)
    (hsorted : List.Chain' (fun a b => a.start ≤ b.start) subs) :
    List.Chain' (fun a b => a.stop ≤ b.start) (merge_overlapping subs) :=
  merge_overlapping_chain' subs

/-- Witness for C1 at a concrete sorted two-cue input. -/
theorem merge_output_no_overlap_witness :
    List.Chain' (fun a b : Cue => a.stop ≤ b.start)
      (merge_overlapping
        [⟨0, 50, "Hi".toList, "A".toList⟩, ⟨30, 80, "there".toList, "B".toList⟩]) :=
  merge_output_no_overlap _
    (by simp only [List.chain'_cons, List.chain'_singleton, and_true]; decide)

/-- C2: whenever `_split_subtitle_entry` expands a source cue into two or
more sub-cues, the sub-cue durations sum exactly to the source duration, the
first sub-cue starts at the source's start, and the last sub-cue stops at the
source's stop. -/
theorem split_entry_duration_exact (cfg : Config) (sub : Cue)
    (h2 : 2 ≤ (split_subtitle_entry cfg sub).length) :
    ((split_subtitle_entry cfg sub).map (fun c => c.stop - c.start)).sum
        = sub.stop - sub.start ∧
    (split_subtitle_entry cfg sub).head?.map Cue.start = some sub.start ∧
    (split_subtitle_entry cfg sub).getLast?.map Cue.stop = some sub.stop := by
  by_cases ht : sub.text = []
  · rw [split_subtitle_entry, if_pos ht] at h2
    simp at h2
  by_cases hlen : (splitSegments cfg.maxWordsPerLine sub.text).length ≤ 1
  · simp only [split_subtitle_entry] at h2
    rw [if_neg ht, if_pos hlen] at h2
    simp at h2
  · have hne : splitSegments cfg.maxWordsPerLine sub.text ≠ [] := by
      intro h
      rw [h] at hlen
      simp at hlen
    have hspec := pinLayOut_spec (splitSegments cfg.maxWordsPerLine sub.text)
      (segment_durations cfg (splitSegments cfg.maxWordsPerLine sub.text)
        (sub.stop - sub.start))
      sub.speaker sub.start sub.stop hne
      (segment_durations_length cfg _ _).symm
    have heq : split_subtitle_entry cfg sub =
        pinLast sub.stop
          (layOut sub.speaker sub.start (splitSegments cfg.maxWordsPerLine sub.text)
            (segment_durations cfg (splitSegments cfg.maxWordsPerLine sub.text)
              (sub.stop - sub.start))) := by
      rw [split_subtitle_entry, if_neg ht]
      exact if_neg hlen
    rw [heq]
    exact ⟨hspec.2.2, hspec.1, hspec.2.1⟩

/-- Witness for C2 at the merged cue of the C6 scenario: splitting
`{start:0, stop:80, text:"Hi\nthere"}` with the default configuration yields
two sub-cues whose durations sum to 80, starting at 0 and ending at 80. -/
theorem split_entry_duration_exact_witness :
    ((split_subtitle_entry ⟨10, 5/2⟩ ⟨0, 80, "Hi\nthere".toList, "A/B".toList⟩).map
        (fun c => c.stop - c.start)).sum = 80 - 0 ∧
    (split_subtitle_entry ⟨10, 5/2⟩
        ⟨0, 80, "Hi\nthere".toList, "A/B".toList⟩).head?.map Cue.start = some 0 ∧
    (split_subtitle_entry ⟨10, 5/2⟩
        ⟨0, 80, "Hi\nthere".toList, "A/B".toList⟩).getLast?.map Cue.stop = some 80 :=
  split_entry_duration_exact ⟨10, 5/2⟩ ⟨0, 80, "Hi\nthere".toList, "A/B".toList⟩
    (by
      have ht : ("Hi\nthere".toList : Str) ≠ [] := by decide
      have hlen : ¬ (splitSegments 10 "Hi\nthere".toList).length ≤ 1 := by decide
      have heq : split_subtitle_entry ⟨10, 5/2⟩
          ⟨0, 80, "Hi\nthere".toList, "A/B".toList⟩ =
          pinLast 80
            (layOut "A/B".toList 0 (splitSegments 10 "Hi\nthere".toList)
              (segment_durations ⟨10, 5/2⟩ (splitSegments 10 "Hi\nthere".toList)
                (80 - 0))) := by
        rw [split_subtitle_entry, if_neg ht]
        exact if_neg hlen
      rw [heq, pinLast_length, layOut_length, segment_durations_length]
      decide)

/-- C8: `format_time` renders a frame count as the zero-padded
`HH:MM:SS,mmm` string described by the spec — seconds `= frames / fps`,
hours/minutes/seconds by integer division and modulo on the whole-second
part, milliseconds by truncation — and maps 0, 24 and 24·90 frames at 24 fps
to `00:00:00,000`, `00:00:01,000` and `00:01:30,000`. -/
theorem format_time_correct :
    (∀ (frames : ℚ) (fps : ℤ), 0 ≤ frames → 0 < fps →
        format_time frames fps = format_time_spec frames fps) ∧
    format_time 0 24 = "00:00:00,000".toList ∧
    format_time 24 24 = "00:00:01,000".toList ∧
    format_time (24 * 90) 24 = "00:01:30,000".toList := by
  refine ⟨fun frames fps hf hfps => format_time_eq_spec frames fps hf hfps, ?_, ?_, ?_⟩
  · norm_num [format_time, pyFloorDiv, pyMod, pyInt]
    decide
  · norm_num [format_time, pyFloorDiv, pyMod, pyInt]
    decide
  · norm_num [format_time, pyFloorDiv, pyMod, pyInt]
    decide

/-- Witness for C8's quantified part at the concrete input 100 frames,
24 fps. -/
theorem format_time_correct_witness :
    format_time 100 24 = format_time_spec 100 24 :=
  format_time_correct.1 100 24 (by norm_num) (by norm_num)

/-- C4: with any configured maximum words per line ≥ 1, every text segment
emitted by the segmentation phase of `_split_subtitle_entry` contains at most
`maxW` words; in particular a single indivisible token, being one word, never
needs subdividing. -/
theorem segment_word_cap (maxW : ℕ) (text : Str) (hmax : 1 ≤ maxW) :
    ∀ seg ∈ splitSegments maxW text, (pySplit seg).length ≤ maxW :=
  splitSegments_bound maxW hmax text

/-- Witness for C4 at the concrete text `"a b c. d e"` with cap 2 and the
emitted segment `"a b"`. -/
theorem segment_word_cap_witness :
    (pySplit "a b".toList).length ≤ 2 :=
  segment_word_cap 2 "a b c. d e".toList (by decide) "a b".toList (by decide)

/-- C3: `_merge_overlapping` is idempotent — it is the identity on
overlap-free input, and running it twice on any ascending-ordered input
equals running it once. -/
theorem merge_idempotent :
    (∀ subs : List Cue, List.Chain' (fun a b => a.stop ≤ b.start) subs →
        merge_overlapping subs = subs) ∧
    (∀ subs : List Cue, List.Chain' (fun a b => a.start ≤ b.start) subs →
        merge_overlapping (merge_overlapping subs) = merge_overlapping subs) :=
  ⟨fun subs h => merge_overlapping_noop subs h,
   fun subs _ => merge_overlapping_noop _ (merge_overlapping_chain' subs)⟩

/-- Witness for C3 at concrete inputs: an overlap-free pair is untouched, and
a double merge of an overlapping sorted pair equals the single merge. -/
theorem merge_idempotent_witness :
    merge_overlapping
        [⟨0, 30, "Hi".toList, "A".toList⟩, ⟨30, 80, "there".toList, "B".toList⟩] =
      [⟨0, 30, "Hi".toList, "A".toList⟩, ⟨30, 80, "there".toList, "B".toList⟩] ∧
    merge_overlapping (merge_overlapping
        [⟨0, 50, "Hi".toList, "A".toList⟩, ⟨30, 80, "there".toList, "B".toList⟩]) =
      merge_overlapping
        [⟨0, 50, "Hi".toList, "A".toList⟩, ⟨30, 80, "there".toList, "B".toList⟩] :=
  ⟨merge_idempotent.1 _
      (by simp only [List.chain'_cons, List.chain'_singleton, and_true]; decide),
   merge_idempotent.2 _
      (by simp only [List.chain'_cons, List.chain'_singleton, and_true]; decide)⟩

/-- C6: the two overlapping cues `{start:0, stop:50, text:"Hi", speaker:"a"}`
and `{start:30, stop:80, text:"there", speaker:"b"}` (speakers capitalized by
the extractor) merge to the single cue
`{start:0, stop:80, speaker:"A/B", text:"Hi\nthere"}`. -/
theorem merge_two_cues_scenario :
    merge_overlapping
      [⟨0, 50, "Hi".toList, pyCapitalize "a".toList⟩,
       ⟨30, 80, "there".toList, pyCapitalize "b".toList⟩] =
      [⟨0, 80, "Hi\nthere".toList, "A/B".toList⟩] := by
  norm_num [merge_overlapping, mergeRev, mergeCues, pyCapitalize]
  decide

/-- C7: applying `apply_offset` with delta `d` and then with `-d` restores
every cue's original start and stop values. -/
theorem apply_offset_roundtrip (subs : List Cue) (d : ℚ) :
    apply_offset (apply_offset subs d) (-d) = subs := by
  simp only [apply_offset, List.map_map]
  conv_rhs => rw [← List.map_id subs]
  refine List.map_congr_left fun c _ => ?_
  ext <;> simp

end GoSubtitle
